import Mathlib

/-!
Verification of the scratch-file buffer routines of the ed line editor
(src/buf.c): the scratch store (get_sbuf_line, put_sbuf_line, close_sbuf),
the line registry (add_line_node, get_line_node_addr) and the address
cache (get_addressed_line_node), shallowly embedded as pure Lean
functions with explicit state passing.  File I/O is modelled by a file
contents list plus a real file position; fallible primitives (fseek,
fwrite, fread, fclose) take an explicit success flag, with a short read
additionally forced whenever the file holds too few bytes.
-/

namespace Ed

/-- Error kinds reported through the global errmsg string by seterrmsg:
"line too long", "cannot seek/read/write temp file" (I/O), "cannot
open/close temp file" (store), "invalid address", "out of memory". -/
inductive EdError where
  | lineTooLong
  | ioFailure
  | storeUnavailable
  | invalidAddress
  | outOfMemory
deriving DecidableEq

/-- Modelled from the spec: ed.h is not under src/; it defines the error
return code ERR used by close_sbuf and get_line_node_addr.  The claims
only use that it is a failure return distinct from any valid result; we
fix the traditional value -2. -/
def ERR : Int := -2

/-- Modelled from the spec: ed.h is not under src/; it defines the
compile-time constant LINECHARS, the fixed maximum line length ("a few
thousand bytes").  The claims are stated relative to this bound; we fix
4096. -/
def LINECHARS : Nat := 4096

/-- A line node's scratch-store descriptor: `adr` is the byte offset in
the scratch file (field adr of line_t, type tp_ftell) and `llen` the
byte count of the line's text excluding the newline (field llen). -/
structure Line where
  adr : Int
  llen : Nat
deriving DecidableEq

/-- The scratch-store state: the backing file's bytes and real position,
whether sfp is open, the cached position sfpos (-1 = unknown), the
seek_write flag, and the global errmsg last set by seterrmsg. -/
structure SState where
  contents : List Char
  realpos : Nat
  sfp_open : Bool
  sfpos : Int
  seek_write : Bool
  errmsg : Option EdError
deriving DecidableEq

/-- Length of the text of a '\n'-terminated line: the C scan
`for (s = cs; *s != '\n'; s++);` (put_sbuf_line asserts cs is
'\n'-terminated; on a list without '\n' we count to the end). -/
def lineLen : List Char → Nat
  | [] => 0
  | c :: cs => if c = '\n' then 0 else lineLen cs + 1

/-- Overwrite bytes `bs` into file contents `c` at position `pos`,
zero-padding if `pos` lies past end of file (fwrite semantics). -/
def writeAt (c : List Char) (pos : Nat) (bs : List Char) : List Char :=
  c.take pos ++ List.replicate (pos - c.length) (Char.ofNat 0) ++ bs
    ++ c.drop (pos + bs.length)

/-- The fread phase of get_sbuf_line: read llen bytes at the current
real position (succeeding iff the read is not forced short and the file
holds enough bytes), then `sfpos += len`.  On failure seterrmsg
"cannot read temp file" and return NULL with sfpos untouched. -/
def get_sbuf_read (st : SState) (l : Line) (read_ok : Bool) :
    Option (List Char) × SState :=
  if read_ok ∧ st.realpos + l.llen ≤ st.contents.length then
    (some ((st.contents.drop st.realpos).take l.llen),
     { st with realpos := st.realpos + l.llen,
               sfpos := st.sfpos + (l.llen : Int) })
  else
    (none, { st with errmsg := some EdError.ioFailure })

/-- get_sbuf_line: get a line of text from the scratch file.  Returns
NULL at once for the sentinel &buffer_head; otherwise sets seek_write,
and if out of position assigns `sfpos = lp->adr` and then seeks there
(the seek can only succeed for a non-negative target, as with fseek;
on seek failure: seterrmsg "cannot seek temp file", return NULL — note
sfpos keeps the target value), then reads. -/
def get_sbuf_line (st : SState) :
    Option Line → Bool → Bool → Option (List Char) × SState
  | none, _, _ => (none, st)
  | some l, seek_ok, read_ok =>
    let st1 : SState := { st with seek_write := true }
    if st1.sfpos ≠ l.adr then
      let st2 : SState := { st1 with sfpos := l.adr }
      if seek_ok ∧ 0 ≤ l.adr then
        get_sbuf_read { st2 with realpos := l.adr.toNat } l read_ok
      else
        (none, { st2 with errmsg := some EdError.ioFailure })
    else
      get_sbuf_read st1 l read_ok

/-- The fwrite phase of put_sbuf_line: write the `len` text bytes at
the current real position; on success build the descriptor
`{adr := sfpos, llen := len}` and advance `sfpos += len`; on a short
write set `sfpos = -1`, seterrmsg "cannot write temp file", NULL. -/
def put_sbuf_write (st : SState) (cs : List Char) (len : Nat)
    (write_ok : Bool) : Option Line × SState :=
  if write_ok then
    (some { adr := st.sfpos, llen := len },
     { st with contents := writeAt st.contents st.realpos (cs.take len),
               realpos := st.realpos + len,
               sfpos := st.sfpos + (len : Int) })
  else
    (none, { st with sfpos := -1, errmsg := some EdError.ioFailure })

/-- put_sbuf_line: write a line of text to the scratch file.  Scans to
the '\n'; rejects the line ("line too long") if its length reaches
LINECHARS, before touching the store; if seek_write is set, seeks to
end of file (failure: "cannot seek temp file", store untouched), sets
`sfpos = do_ftell(sfp)` and clears the flag; then writes.  The C code
then hands the new descriptor to add_line_node (modelled separately on
the registry state) and returns the pointer past the '\n'; here we
return the descriptor it created. -/
def put_sbuf_line (st : SState) (cs : List Char)
    (seek_ok write_ok : Bool) : Option Line × SState :=
  let len := lineLen cs
  if LINECHARS ≤ len then
    (none, { st with errmsg := some EdError.lineTooLong })
  else
    if st.seek_write then
      if seek_ok then
        put_sbuf_write
          { st with realpos := st.contents.length,
                    sfpos := (st.contents.length : Int),
                    seek_write := false } cs len write_ok
      else
        (none, { st with errmsg := some EdError.ioFailure })
    else
      put_sbuf_write st cs len write_ok

/-- close_sbuf: close the scratch file.  If sfp is open, fclose it: on
EOF seterrmsg "cannot close temp file" and return ERR at once (before
the resets); otherwise unlink the file and clear sfp.  Then
`sfpos = seek_write = 0` and return 0. -/
def close_sbuf (st : SState) (close_ok : Bool) : Int × SState :=
  if st.sfp_open then
    if close_ok then
      (0, { st with sfp_open := false, sfpos := 0, seek_write := false })
    else
      (ERR, { st with errmsg := some EdError.storeUnavailable })
  else
    (0, { st with sfpos := 0, seek_write := false })

/-- A pointer into the registry ring: `none` is the sentinel
&buffer_head, `some id` is the line node allocated with identity
`id` (pointer identity; each malloc yields a fresh id). -/
abbrev Node := Option Nat

/-- The line-registry state: the node identities linked forward from
the sentinel in ring order (so the node at 1-based ordinal i is
`lines[i-1]`), the globals current_addr and addr_last, and
get_addressed_line_node's static cache (`on`, `lp`). -/
structure EdBuf where
  lines : List Nat
  current_addr : Nat
  addr_last : Nat
  cache_on : Nat
  cache_node : Node
deriving DecidableEq

/-- Index of the first occurrence of `id` (length if absent). -/
def findPos : List Nat → Nat → Nat
  | [], _ => 0
  | x :: xs, id => if x = id then 0 else findPos xs id + 1

/-- Current ring position of a node: 0 for the sentinel, 1-based list
position for a line node. -/
def posOf (lines : List Nat) : Node → Nat
  | none => 0
  | some id => findPos lines id + 1

/-- q_forw on ring positions: the last node's successor is the
sentinel (position 0). -/
def ringForw (lines : List Nat) (p : Nat) : Nat :=
  if p = lines.length then 0 else p + 1

/-- q_back on ring positions: the sentinel's predecessor is the last
node. -/
def ringBack (lines : List Nat) (p : Nat) : Nat :=
  if p = 0 then lines.length else p - 1

/-- Follow q_forw `k` times from position `p`. -/
def walkForw (lines : List Nat) (p : Nat) : Nat → Nat
  | 0 => p
  | k + 1 => walkForw lines (ringForw lines p) k

/-- Follow q_back `k` times from position `p`. -/
def walkBack (lines : List Nat) (p : Nat) : Nat → Nat
  | 0 => p
  | k + 1 => walkBack lines (ringBack lines p) k

/-- The node at ring position `p` (sentinel at 0). -/
def ringNode (lines : List Nat) (p : Nat) : Node :=
  if p = 0 then none else lines.get? (p - 1)

/-- get_addressed_line_node: resolve ordinal `n` to a node via the
static cache `(on, lp)`.  If `n > on`: when `n ≤ (on+addr_last) >> 1`
walk forward n-on hops from the cached node, else walk backward from
buffer_head.q_back with `on` starting at addr_last.  If `n ≤ on`: when
`n ≥ on >> 1` walk backward on-n hops from the cached node, else walk
forward from &buffer_head with `on` starting at 0.  The cache is left
holding the final (on, lp) pair and lp is returned. -/
def get_addressed_line_node (st : EdBuf) (n : Nat) : Node × EdBuf :=
  let co := st.cache_on
  let lpPos := posOf st.lines st.cache_node
  let fin :=
    if co < n then
      if n ≤ (co + st.addr_last) / 2 then
        (n, walkForw st.lines lpPos (n - co))
      else
        (min st.addr_last n,
         walkBack st.lines (ringBack st.lines 0) (st.addr_last - n))
    else
      if co / 2 ≤ n then
        (n, walkBack st.lines lpPos (co - n))
      else
        (n, walkForw st.lines 0 n)
  let node := ringNode st.lines fin.2
  (node, { st with cache_on := fin.1, cache_node := node })

/-- add_line_node: link a (fresh) node into the ring immediately after
the node at current_addr — resolved through get_addressed_line_node
first, before any mutation ("this get_addressed_line_node last!") —
then `addr_last++; current_addr++`. -/
def add_line_node (st : EdBuf) (id : Nat) : EdBuf :=
  let r := get_addressed_line_node st st.current_addr
  let st1 := r.2
  { st1 with lines := st1.lines.insertIdx (posOf st1.lines r.1) id,
             addr_last := st1.addr_last + 1,
             current_addr := st1.current_addr + 1 }

/-- The loop of get_line_node_addr: starting from cp = &buffer_head and
n = 0, while cp ≠ lp and advancing cp does not return to the sentinel,
count hops; at exit, ERR ("invalid address") iff n ≠ 0 and cp is back
at the sentinel, else n. -/
def gl_loop (id : Nat) : List Nat → Nat → Int
  | [], n => if n ≠ 0 then ERR else 0
  | x :: xs, n => if x = id then ((n + 1 : Nat) : Int) else gl_loop id xs (n + 1)

/-- get_line_node_addr: return the line number of a node pointer (0 for
the sentinel), or ERR with "invalid address" when the walk returns to
the sentinel after at least one hop without finding it. -/
def get_line_node_addr (lines : List Nat) : Node → Int
  | none => 0
  | some id => gl_loop id lines 0

/-- The registry as initialised by init_buffers: REQUE(&buffer_head,
&buffer_head) leaves an empty ring; current_addr and addr_last are 0
and the cache statics start at (0, &buffer_head). -/
def init_buffers_reg : EdBuf :=
  { lines := [], current_addr := 0, addr_last := 0,
    cache_on := 0, cache_node := none }

/-- Modelled from the spec: the ordinal range validation that guards
get_addressed_line_node lives in the editor's command loop (main.c,
not under src/): "Fails with InvalidAddress if ordinal is outside
[0, count]".  In range, it resolves through the real
get_addressed_line_node. -/
def node_at (st : EdBuf) (n : Int) : Except EdError (Node × EdBuf) :=
  if n < 0 ∨ (st.addr_last : Int) < n then
    Except.error EdError.invalidAddress
  else
    Except.ok (get_addressed_line_node st n.toNat)

/-- The cache-free resolver of the spec: walk forward from the sentinel
counting hops. -/
def naive_node_at (lines : List Nat) (n : Nat) : Node :=
  ringNode lines (walkForw lines 0 n)

/-- Insert a sequence of (fresh) nodes, each after current_addr, via
add_line_node. -/
def insert_lines (st : EdBuf) (ids : List Nat) : EdBuf :=
  ids.foldl add_line_node st

/-- Run a sequence of get_addressed_line_node calls, recording for each
the returned node and the cache pair it leaves behind. -/
def query_trace (st : EdBuf) : List Nat → List (Node × Nat × Node)
  | [] => []
  | q :: qs =>
    let r := get_addressed_line_node st q
    (r.1, r.2.cache_on, r.2.cache_node) :: query_trace r.2 qs

/-- Well-formedness of a registry state: addr_last counts the ring,
node identities (pointers) are pairwise distinct, the cached node
really sits at the cached ordinal, and the cached ordinal and
current_addr are in range. -/
def WF (st : EdBuf) : Prop :=
  st.addr_last = st.lines.length ∧
  st.lines.Nodup ∧
  posOf st.lines st.cache_node = st.cache_on ∧
  st.cache_on ≤ st.addr_last ∧
  st.current_addr ≤ st.addr_last

instance (st : EdBuf) : Decidable (WF st) := by
  unfold WF; infer_instance

/-! ### Ring-walk lemmas -/

theorem walkForw_no_wrap (lines : List Nat) :
    ∀ k p, p + k ≤ lines.length → walkForw lines p k = p + k := by
  intro k
  induction k with
  | zero => intro p _; rfl
  | succ k ih =>
    intro p hp
    have hne : p ≠ lines.length := by omega
    simp only [walkForw, ringForw, if_neg hne]
    rw [ih (p + 1) (by omega)]
    omega

theorem walkBack_no_wrap (lines : List Nat) :
    ∀ k p, k ≤ p → walkBack lines p k = p - k := by
  intro k
  induction k with
  | zero => intro p _; rfl
  | succ k ih =>
    intro p hp
    have hne : p ≠ 0 := by omega
    simp only [walkBack, ringBack, if_neg hne]
    rw [ih (p - 1) (by omega)]
    omega

/-! ### findPos / posOf / ringNode lemmas -/

theorem findPos_lt_length {id : Nat} :
    ∀ {lines : List Nat}, id ∈ lines → findPos lines id < lines.length := by
  intro lines
  induction lines with
  | nil => intro h; cases h
  | cons x xs ih =>
    intro h
    by_cases hx : x = id
    · simp [findPos, hx]
    · simp only [findPos, if_neg hx, List.length_cons]
      have : id ∈ xs := by
        rcases List.mem_cons.mp h with h1 | h1
        · exact absurd h1.symm hx
        · exact h1
      exact Nat.succ_lt_succ (ih this)

theorem findPos_getElem {id : Nat} :
    ∀ {lines : List Nat}, id ∈ lines →
      lines[findPos lines id]? = some id := by
  intro lines
  induction lines with
  | nil => intro h; cases h
  | cons x xs ih =>
    intro h
    by_cases hx : x = id
    · simp [findPos, hx]
    · have : id ∈ xs := by
        rcases List.mem_cons.mp h with h1 | h1
        · exact absurd h1.symm hx
        · exact h1
      simp only [findPos, if_neg hx]
      simpa using ih this

theorem findPos_of_getElem :
    ∀ {lines : List Nat}, lines.Nodup → ∀ i (hi : i < lines.length),
      findPos lines (lines.get ⟨i, hi⟩) = i := by
  intro lines
  induction lines with
  | nil => intro _ i hi; cases hi
  | cons x xs ih =>
    intro hnd i hi
    rcases List.nodup_cons.mp hnd with ⟨hx, hxs⟩
    match i with
    | 0 => simp [findPos]
    | i + 1 =>
      have hi' : i < xs.length := by simpa using hi
      have hmem : xs.get ⟨i, hi'⟩ ∈ xs := List.get_mem xs i hi'
      have hxne : x ≠ xs.get ⟨i, hi'⟩ := by
        intro hcon; exact hx (hcon ▸ hmem)
      simp only [List.get_cons_succ, findPos, if_neg hxne]
      rw [ih hxs i hi']

theorem findPos_of_not_mem {id : Nat} :
    ∀ {lines : List Nat}, id ∉ lines → findPos lines id = lines.length := by
  intro lines
  induction lines with
  | nil => intro _; rfl
  | cons x xs ih =>
    intro h
    have hx : x ≠ id := by intro hcon; exact h (hcon ▸ List.mem_cons_self x xs)
    have hxs : id ∉ xs := fun hm => h (List.mem_cons_of_mem x hm)
    simp [findPos, if_neg hx, ih hxs]

theorem ringNode_zero (lines : List Nat) : ringNode lines 0 = none := rfl

theorem ringNode_pos (lines : List Nat) (p : Nat) (h1 : 1 ≤ p)
    (h2 : p ≤ lines.length) :
    ringNode lines p = some (lines.get ⟨p - 1, by omega⟩) := by
  have hne : p ≠ 0 := by omega
  simp [ringNode, if_neg hne, List.getElem?_eq_getElem (show p - 1 < lines.length by omega)]

theorem posOf_ringNode (lines : List Nat) (hnd : lines.Nodup) (p : Nat)
    (hp : p ≤ lines.length) :
    posOf lines (ringNode lines p) = p := by
  match p with
  | 0 => rfl
  | p + 1 =>
    rw [ringNode_pos lines (p + 1) (by omega) hp]
    simp only [posOf, Nat.add_sub_cancel]
    rw [findPos_of_getElem hnd p (by omega)]

/-! ### The cache resolves correctly from any well-formed state -/

theorem galn_eq (st : EdBuf) (n : Nat) (hwf : WF st)
    (hn : n ≤ st.addr_last) :
    get_addressed_line_node st n =
      (ringNode st.lines n,
       { st with cache_on := n, cache_node := ringNode st.lines n }) := by
  obtain ⟨hal, _hnd, hpos, hco, _hca⟩ := hwf
  unfold get_addressed_line_node
  simp only [hpos]
  by_cases h1 : st.cache_on < n
  · by_cases h2 : n ≤ (st.cache_on + st.addr_last) / 2
    · simp only [if_pos h1, if_pos h2]
      rw [walkForw_no_wrap st.lines (n - st.cache_on) st.cache_on (by omega)]
      have : st.cache_on + (n - st.cache_on) = n := by omega
      rw [this]
    · simp only [if_pos h1, if_neg h2]
      have hrb : ringBack st.lines 0 = st.lines.length := by simp [ringBack]
      rw [hrb, walkBack_no_wrap st.lines (st.addr_last - n) st.lines.length
        (by omega)]
      have hmin : min st.addr_last n = n := Nat.min_eq_right hn
      have hsub : st.lines.length - (st.addr_last - n) = n := by omega
      rw [hmin, hsub]
  · by_cases h3 : st.cache_on / 2 ≤ n
    · simp only [if_neg h1, if_pos h3]
      rw [walkBack_no_wrap st.lines (st.cache_on - n) st.cache_on (by omega)]
      have : st.cache_on - (st.cache_on - n) = n := by omega
      rw [this]
    · simp only [if_neg h1, if_neg h3]
      rw [walkForw_no_wrap st.lines n 0 (by omega), Nat.zero_add]

theorem galn_WF (st : EdBuf) (n : Nat) (hwf : WF st)
    (hn : n ≤ st.addr_last) :
    WF (get_addressed_line_node st n).2 := by
  obtain ⟨hal, hnd, hpos, hco, hca⟩ := hwf
  rw [galn_eq st n ⟨hal, hnd, hpos, hco, hca⟩ hn]
  exact ⟨hal, hnd, posOf_ringNode st.lines hnd n (by omega), hn, hca⟩

/-! ### Insertion lemmas -/

theorem findPos_append_of_mem {id : Nat} :
    ∀ {l1 : List Nat} (l2 : List Nat), id ∈ l1 →
      findPos (l1 ++ l2) id = findPos l1 id := by
  intro l1
  induction l1 with
  | nil => intro l2 h; cases h
  | cons x xs ih =>
    intro l2 h
    by_cases hx : x = id
    · simp [findPos, hx]
    · have : id ∈ xs := by
        rcases List.mem_cons.mp h with h1 | h1
        · exact absurd h1.symm hx
        · exact h1
      simp [findPos, if_neg hx, ih l2 this]

theorem add_line_node_eq (st : EdBuf) (id : Nat) (hwf : WF st)
    (hcur : st.current_addr = st.addr_last) :
    add_line_node st id =
      { lines := st.lines ++ [id], current_addr := st.addr_last + 1,
        addr_last := st.addr_last + 1, cache_on := st.addr_last,
        cache_node := ringNode st.lines st.addr_last } := by
  have hal := hwf.1
  have hnd := hwf.2.1
  unfold add_line_node
  rw [hcur, galn_eq st st.addr_last hwf le_rfl]
  simp only []
  rw [posOf_ringNode st.lines hnd st.addr_last (le_of_eq hal), hal,
    List.insertIdx_length_self, hcur, hal]

theorem add_line_node_WF (st : EdBuf) (id : Nat) (hwf : WF st)
    (hcur : st.current_addr = st.addr_last) (hfresh : id ∉ st.lines) :
    WF (add_line_node st id) ∧
      (add_line_node st id).current_addr = (add_line_node st id).addr_last := by
  have hal := hwf.1
  have hnd := hwf.2.1
  rw [add_line_node_eq st id hwf hcur]
  refine ⟨⟨by simp [hal], ?_, ?_, Nat.le_succ _, le_rfl⟩, rfl⟩
  · simp [List.nodup_append, hnd, hfresh]
  · match h0 : st.addr_last, hal with
    | 0, hal0 =>
      have : st.lines = [] := List.length_eq_zero.mp hal0.symm
      simp [this, ringNode_zero, posOf]
    | p + 1, halp =>
      rw [ringNode_pos st.lines (p + 1) (by omega) (le_of_eq halp)]
      simp only [posOf, Nat.add_sub_cancel]
      have hmem : st.lines.get ⟨p, by omega⟩ ∈ st.lines :=
        List.get_mem st.lines p (by omega)
      rw [findPos_append_of_mem [id] hmem,
        findPos_of_getElem hnd p (by omega)]

theorem insert_lines_spec :
    ∀ (ids : List Nat) (st : EdBuf), WF st →
      st.current_addr = st.addr_last → (∀ id ∈ ids, id ∉ st.lines) →
      ids.Nodup →
      (insert_lines st ids).lines = st.lines ++ ids ∧
        WF (insert_lines st ids) ∧
        (insert_lines st ids).current_addr = (insert_lines st ids).addr_last := by
  intro ids
  induction ids with
  | nil => intro st hwf hcur _ _; exact ⟨by simp [insert_lines], hwf, hcur⟩
  | cons id ids ih =>
    intro st hwf hcur hfresh hnd
    have hids : insert_lines st (id :: ids) =
        insert_lines (add_line_node st id) ids := rfl
    have hfid : id ∉ st.lines := hfresh id (List.mem_cons_self id ids)
    obtain ⟨hwf1, hcur1⟩ := add_line_node_WF st id hwf hcur hfid
    have hfresh1 : ∀ j ∈ ids, j ∉ (add_line_node st id).lines := by
      intro j hj
      rw [add_line_node_eq st id hwf hcur]
      simp only [List.mem_append, List.mem_singleton]
      rintro (hc | hc)
      · exact hfresh j (List.mem_cons_of_mem id hj) hc
      · exact (List.nodup_cons.mp hnd).1 (hc ▸ hj)
    obtain ⟨hl, hwf2, hcur2⟩ :=
      ih (add_line_node st id) hwf1 hcur1 hfresh1 (List.nodup_cons.mp hnd).2
    refine ⟨?_, hwf2, hcur2⟩
    rw [hids, hl, add_line_node_eq st id hwf hcur]
    simp

theorem query_trace_spec :
    ∀ (qs : List Nat) (st : EdBuf), WF st → (∀ q ∈ qs, q ≤ st.addr_last) →
      query_trace st qs =
        qs.map (fun q => (ringNode st.lines q, q, ringNode st.lines q)) := by
  intro qs
  induction qs with
  | nil => intro st _ _; rfl
  | cons q qs ih =>
    intro st hwf hq
    have hq0 : q ≤ st.addr_last := hq q (List.mem_cons_self q qs)
    have hgal := galn_eq st q hwf hq0
    have hwf2 :
        WF { st with cache_on := q, cache_node := ringNode st.lines q } := by
      have h2 := galn_WF st q hwf hq0
      rw [hgal] at h2
      exact h2
    simp only [query_trace, hgal]
    rw [ih _ hwf2 (by intro r hr; exact hq r (List.mem_cons_of_mem q hr))]
    simp [List.map]

theorem naive_node_at_eq (lines : List Nat) (n : Nat)
    (h : n ≤ lines.length) : naive_node_at lines n = ringNode lines n := by
  unfold naive_node_at
  rw [walkForw_no_wrap lines n 0 (by omega), Nat.zero_add]

theorem init_buffers_WF : WF init_buffers_reg := by decide

/-! ### get_line_node_addr characterisation -/

theorem gl_loop_of_mem {id : Nat} :
    ∀ (xs : List Nat) (n : Nat), id ∈ xs →
      gl_loop id xs n = ((n + findPos xs id + 1 : Nat) : Int) := by
  intro xs
  induction xs with
  | nil => intro n h; cases h
  | cons x xs ih =>
    intro n h
    by_cases hx : x = id
    · simp [gl_loop, findPos, hx]
    · have : id ∈ xs := by
        rcases List.mem_cons.mp h with h1 | h1
        · exact absurd h1.symm hx
        · exact h1
      simp only [gl_loop, findPos, if_neg hx]
      rw [ih (n + 1) this]
      congr 1
      omega

theorem gl_loop_of_not_mem {id : Nat} :
    ∀ (xs : List Nat) (n : Nat), id ∉ xs →
      gl_loop id xs n = if n + xs.length ≠ 0 then ERR else 0 := by
  intro xs
  induction xs with
  | nil => intro n _; simp [gl_loop]
  | cons x xs ih =>
    intro n h
    have hx : x ≠ id := by
      intro hc; exact h (hc ▸ List.mem_cons_self x xs)
    have hxs : id ∉ xs := fun hm => h (List.mem_cons_of_mem x hm)
    simp only [gl_loop, if_neg hx]
    rw [ih (n + 1) hxs]
    simp only [List.length_cons]
    have h1 : n + 1 + xs.length ≠ 0 := by omega
    have h2 : n + (xs.length + 1) ≠ 0 := by omega
    rw [if_pos h1, if_pos h2]

theorem glna_mem (lines : List Nat) (id : Nat) (h : id ∈ lines) :
    get_line_node_addr lines (some id) =
      ((findPos lines id + 1 : Nat) : Int) := by
  show gl_loop id lines 0 = _
  rw [gl_loop_of_mem lines 0 h]
  norm_num

/-! ### Claim theorems for the line registry and address cache -/

/-- C2: for any sequence of line insertions followed by
get_addressed_line_node calls with ordinals in [0, count] in arbitrary
order, every call returns the same node as the cache-free resolver that
walks forward from the sentinel counting hops, and each call leaves the
cached (ordinal, node) pair equal to (target, resolved node). -/
theorem cache_equivalence (ids qs : List Nat) (hnd : ids.Nodup)
    (hq : ∀ q ∈ qs, q ≤ ids.length) :
    query_trace (insert_lines init_buffers_reg ids) qs =
      qs.map (fun q => (naive_node_at ids q, q, naive_node_at ids q)) := by
  obtain ⟨hl, hwf, _⟩ := insert_lines_spec ids init_buffers_reg
    init_buffers_WF rfl (by intro j _ hc; cases hc) hnd
  have hl2 : (insert_lines init_buffers_reg ids).lines = ids := by
    simpa [init_buffers_reg] using hl
  have hal : (insert_lines init_buffers_reg ids).addr_last = ids.length := by
    rw [hwf.1, hl2]
  rw [query_trace_spec qs _ hwf (by rw [hal]; exact hq), hl2]
  exact List.map_congr_left fun q hqq => by
    rw [naive_node_at_eq ids q (hq q hqq)]

/-- C2 witness: three insertions then queries 2, 0, 3, 1, 3, 2. -/
theorem cache_equivalence_witness :
    query_trace (insert_lines init_buffers_reg [10, 20, 30])
        [2, 0, 3, 1, 3, 2] =
      [2, 0, 3, 1, 3, 2].map
        (fun q => (naive_node_at [10, 20, 30] q, q,
                   naive_node_at [10, 20, 30] q)) :=
  cache_equivalence [10, 20, 30] [2, 0, 3, 1, 3, 2] (by decide) (by decide)

/-- C3: on a well-formed registry, get_addressed_line_node inverts
get_line_node_addr on every reachable node, and get_line_node_addr
inverts get_addressed_line_node on every ordinal in [1, count]. -/
theorem ordinal_bijection (st : EdBuf) (hwf : WF st) :
    (∀ lp : Node, (lp = none ∨ ∃ id, id ∈ st.lines ∧ lp = some id) →
      ∃ k : Nat, get_line_node_addr st.lines lp = (k : Int) ∧
        k ≤ st.addr_last ∧ (get_addressed_line_node st k).1 = lp) ∧
    (∀ n : Nat, 1 ≤ n → n ≤ st.addr_last →
      get_line_node_addr st.lines ((get_addressed_line_node st n).1) =
        (n : Int)) := by
  have hal := hwf.1
  have hnd := hwf.2.1
  constructor
  · rintro lp (rfl | ⟨id, hmem, rfl⟩)
    · refine ⟨0, rfl, Nat.zero_le _, ?_⟩
      rw [galn_eq st 0 hwf (Nat.zero_le _)]
      rfl
    · have hflt := findPos_lt_length hmem
      refine ⟨findPos st.lines id + 1, glna_mem st.lines id hmem,
        by omega, ?_⟩
      rw [galn_eq st _ hwf (by omega)]
      simp only []
      rw [ringNode_pos st.lines (findPos st.lines id + 1) (by omega)
        (by omega)]
      have hget := findPos_getElem hmem
      rw [List.getElem?_eq_getElem hflt] at hget
      simp only [Nat.add_sub_cancel, List.get_eq_getElem]
      exact hget
  · intro n h1 hn
    rw [galn_eq st n hwf hn]
    simp only []
    rw [ringNode_pos st.lines n h1 (hal ▸ hn)]
    rw [glna_mem st.lines _ (List.get_mem _ _ _)]
    rw [findPos_of_getElem hnd (n - 1) (by omega)]
    have : n - 1 + 1 = n := by omega
    rw [this]

/-- C3 witness: the bijection on a concrete three-line registry. -/
theorem ordinal_bijection_witness :
    get_line_node_addr [10, 20, 30]
      ((get_addressed_line_node
        ⟨[10, 20, 30], 3, 3, 0, none⟩ 2).1) = (2 : Int) :=
  (ordinal_bijection ⟨[10, 20, 30], 3, 3, 0, none⟩ (by decide)).2
    2 (by decide) (by decide)

/-- C4: node_at (the range-checked get_addressed_line_node) fails with
InvalidAddress whenever its ordinal is outside [0, count], and ordinal
0 resolves to the sentinel node. -/
theorem node_at_range (st : EdBuf) (hwf : WF st) :
    (∀ n : Int, n < 0 ∨ (st.addr_last : Int) < n →
      node_at st n = Except.error EdError.invalidAddress) ∧
    node_at st 0 =
      Except.ok (none, { st with cache_on := 0, cache_node := none }) := by
  constructor
  · intro n hn
    unfold node_at
    rw [if_pos hn]
  · unfold node_at
    rw [if_neg (by omega)]
    rw [show ((0 : Int).toNat) = 0 from rfl,
      galn_eq st 0 hwf (Nat.zero_le _)]
    rfl

/-- C4 witness: ordinals -1 and 4 rejected, 0 resolves to the sentinel,
on a three-line registry. -/
theorem node_at_range_witness :
    node_at ⟨[10, 20, 30], 3, 3, 0, none⟩ (-1) =
        Except.error EdError.invalidAddress ∧
      node_at ⟨[10, 20, 30], 3, 3, 0, none⟩ 4 =
        Except.error EdError.invalidAddress ∧
      node_at ⟨[10, 20, 30], 3, 3, 0, none⟩ 0 =
        Except.ok (none, ⟨[10, 20, 30], 3, 3, 0, none⟩) :=
  ⟨(node_at_range ⟨[10, 20, 30], 3, 3, 0, none⟩ (by decide)).1
      (-1) (by decide),
   (node_at_range ⟨[10, 20, 30], 3, 3, 0, none⟩ (by decide)).1
      4 (by decide),
   (node_at_range ⟨[10, 20, 30], 3, 3, 0, none⟩ (by decide)).2⟩

/-- C9 counterexample: with an empty registry, get_line_node_addr on a
detached (foreign) node returns 0 — the sentinel's ordinal — instead of
failing with ERR, because the detection requires at least one hop. -/
theorem detached_node_empty_registry_addr :
    get_line_node_addr [] (some 42) = 0 ∧
      get_line_node_addr [] (some 42) ≠ ERR := by
  decide

/-- C9 amended: get_line_node_addr returns the 1-based position of
every node reachable forward from the sentinel and 0 for the sentinel
itself; for a node that is not linked into the registry it fails with
ERR ("invalid address") whenever the registry is nonempty, but returns
0 when the registry is empty. -/
theorem node_addr_classification (lines : List Nat) (hnd : lines.Nodup) :
    get_line_node_addr lines none = 0 ∧
    (∀ i (hi : i < lines.length),
      get_line_node_addr lines (some (lines.get ⟨i, hi⟩)) =
        ((i + 1 : Nat) : Int)) ∧
    (∀ id, id ∉ lines → lines ≠ [] →
      get_line_node_addr lines (some id) = ERR) ∧
    (∀ id, id ∉ lines → lines = [] →
      get_line_node_addr lines (some id) = 0) := by
  refine ⟨rfl, ?_, ?_, ?_⟩
  · intro i hi
    rw [glna_mem lines _ (List.get_mem lines i hi),
      findPos_of_getElem hnd i hi]
  · intro id hm hne
    show gl_loop id lines 0 = ERR
    rw [gl_loop_of_not_mem lines 0 hm]
    have hlen : lines.length ≠ 0 :=
      fun h0 => hne (List.length_eq_zero.mp h0)
    rw [if_pos (by omega)]
  · intro id _ he
    subst he
    rfl

/-- C9 witness: positions and the nonempty-registry failure on a
concrete registry. -/
theorem node_addr_classification_witness :
    get_line_node_addr [7, 8] (some 8) = (2 : Int) ∧
      get_line_node_addr [7, 8] (some 42) = ERR :=
  ⟨(node_addr_classification [7, 8] (by decide)).2.1 1 (by decide),
   (node_addr_classification [7, 8] (by decide)).2.2.1 42 (by decide)
      (by decide)⟩

/-! ### Scratch-store lemmas -/

theorem lineLen_append {t : List Char} (r : List Char) (hnl : '\n' ∉ t) :
    lineLen (t ++ '\n' :: r) = t.length := by
  induction t with
  | nil => rfl
  | cons c cs ih =>
    have hc : c ≠ '\n' :=
      fun hcon => hnl (hcon ▸ List.mem_cons_self c cs)
    have hcs : '\n' ∉ cs := fun hm => hnl (List.mem_cons_of_mem c hm)
    simp only [List.cons_append, lineLen, if_neg hc, List.length_cons]
    exact congrArg (fun x => x + 1) (ih hcs)

theorem writeAt_prefix_length (c : List Char) (pos : Nat) :
    (c.take pos ++ List.replicate (pos - c.length) (Char.ofNat 0)).length
      = pos := by
  simp only [List.length_append, List.length_take, List.length_replicate]
  omega

theorem writeAt_drop_take (c : List Char) (pos : Nat) (bs : List Char) :
    ((writeAt c pos bs).drop pos).take bs.length = bs := by
  unfold writeAt
  rw [List.append_assoc (c.take pos ++ List.replicate (pos - c.length)
      (Char.ofNat 0)) bs (c.drop (pos + bs.length)),
    List.drop_left' (writeAt_prefix_length c pos),
    List.take_left' rfl]

theorem writeAt_length (c : List Char) (pos : Nat) (bs : List Char) :
    pos + bs.length ≤ (writeAt c pos bs).length := by
  unfold writeAt
  simp only [List.length_append, List.length_take, List.length_replicate]
  omega

/-- After a write of `t` at offset `r` that left the cursor and the
real position just past it, reading the descriptor {adr := r,
llen := |t|} with healthy I/O yields exactly `t`. -/
theorem get_reads_exact (st : SState) (r : Nat) (t : List Char)
    (hsf : st.sfpos = (r : Int) + t.length)
    (hreal : st.realpos = r + t.length)
    (hcont : (st.contents.drop r).take t.length = t)
    (hlen : r + t.length ≤ st.contents.length) :
    (get_sbuf_line st (some ⟨(r : Int), t.length⟩) true true).1
      = some t := by
  simp only [get_sbuf_line]
  by_cases ht : t.length = 0
  · have ht0 : t = [] := List.length_eq_zero.mp ht
    rw [if_neg (by simp only [ne_eq, not_not, hsf, ht]; omega)]
    simp only [get_sbuf_read]
    rw [if_pos ⟨trivial, by omega⟩]
    simp [ht0]
  · rw [if_pos (by simp only [ne_eq, hsf]; omega),
      if_pos ⟨trivial, Int.natCast_nonneg r⟩]
    simp only [get_sbuf_read, Int.toNat_natCast]
    rw [if_pos ⟨trivial, by omega⟩]
    simp only [hcont]

/-- On a line under the length bound, put_sbuf_line with healthy I/O
succeeds: it seeks to end of file when seek_write is set (fixing the
cursor there), writes the text at the current position, and returns
the descriptor {adr := cursor before the write, llen := text length},
advancing cursor and position by the text length. -/
theorem put_success_eq (st : SState) (t : List Char) (hnl : '\n' ∉ t)
    (hlen : t.length < LINECHARS) :
    put_sbuf_line st (t ++ ['\n']) true true =
      (some ⟨(if st.seek_write then (st.contents.length : Int)
              else st.sfpos), t.length⟩,
       { st with
         contents := writeAt st.contents
           (if st.seek_write then st.contents.length else st.realpos) t,
         realpos :=
           (if st.seek_write then st.contents.length else st.realpos)
             + t.length,
         sfpos :=
           (if st.seek_write then (st.contents.length : Int) else st.sfpos)
             + t.length,
         seek_write := false }) := by
  have hll : lineLen (t ++ ['\n']) = t.length := lineLen_append [] hnl
  have htk : (t ++ ['\n']).take t.length = t := List.take_left' rfl
  unfold put_sbuf_line
  rw [hll, if_neg (by omega)]
  by_cases hsw : st.seek_write
  · rw [if_pos hsw, if_pos rfl]
    unfold put_sbuf_write
    rw [if_pos rfl]
    simp [hsw, htk]
  · rw [if_neg hsw]
    unfold put_sbuf_write
    rw [if_pos rfl]
    have hsw2 : st.seek_write = false := by
      cases h : st.seek_write
      · rfl
      · exact absurd h hsw
    simp [hsw2, htk]

/-! ### Claim theorems for the scratch store -/

/-- C1: appending a terminator-free text `t` shorter than LINECHARS
(via put_sbuf_line on `t` followed by a newline) and then reading the
resulting line node via get_sbuf_line returns exactly `t`, the stored
bytes without the line terminator — from any store state whose cursor
is in sync (seek_write set, or sfpos equal to the real position). -/
theorem round_trip (st : SState) (t : List Char) (hnl : '\n' ∉ t)
    (hlen : t.length < LINECHARS)
    (hpos : st.seek_write = true ∨ st.sfpos = (st.realpos : Int)) :
    ∃ lp st2, put_sbuf_line st (t ++ ['\n']) true true = (some lp, st2) ∧
      (get_sbuf_line st2 (some lp) true true).1 = some t := by
  by_cases hsw : st.seek_write
  · refine ⟨_, _, put_success_eq st t hnl hlen, ?_⟩
    simp only [hsw, if_true]
    exact get_reads_exact _ st.contents.length t rfl rfl
      (writeAt_drop_take st.contents st.contents.length t)
      (writeAt_length st.contents st.contents.length t)
  · have hsp : st.sfpos = (st.realpos : Int) := by
      rcases hpos with h | h
      · exact absurd h hsw
      · exact h
    refine ⟨_, _, put_success_eq st t hnl hlen, ?_⟩
    have hsw2 : st.seek_write = false := by
      cases h : st.seek_write
      · rfl
      · exact absurd h hsw
    simp only [hsw2, Bool.false_eq_true, if_false, hsp]
    exact get_reads_exact _ st.realpos t rfl rfl
      (writeAt_drop_take st.contents st.realpos t)
      (writeAt_length st.contents st.realpos t)

/-- C1 witness: round trip of "ab" through a fresh store. -/
theorem round_trip_witness :
    ∃ lp st2,
      put_sbuf_line ⟨[], 0, true, 0, false, none⟩
          (['a', 'b'] ++ ['\n']) true true = (some lp, st2) ∧
        (get_sbuf_line st2 (some lp) true true).1 = some ['a', 'b'] :=
  round_trip ⟨[], 0, true, 0, false, none⟩ ['a', 'b'] (by decide)
    (by decide) (Or.inr (by decide))

/-- C5 counterexample: in get_sbuf_line, a failed seek does NOT set the
cursor to the unknown sentinel (-1): the code assigns `sfpos = lp->adr`
before the fseek, so after the failure the cursor holds the seek target
(here 5) while the real file position is still 0. -/
theorem seek_fail_stale_cursor :
    (get_sbuf_line ⟨[], 0, true, 0, false, none⟩
        (some ⟨5, 0⟩) false true).1 = none ∧
      (get_sbuf_line ⟨[], 0, true, 0, false, none⟩
        (some ⟨5, 0⟩) false true).2.sfpos = 5 ∧
      (get_sbuf_line ⟨[], 0, true, 0, false, none⟩
        (some ⟨5, 0⟩) false true).2.realpos = 0 ∧
      (get_sbuf_line ⟨[], 0, true, 0, false, none⟩
        (some ⟨5, 0⟩) false true).2.sfpos ≠ -1 := by
  decide

/-- C5 amended: after every successful scratch-store read or write
(started from a state whose cursor matches the real position, or a
write with the seek flag set) the stored cursor sfpos equals the real
file position; a failed write sets the cursor to the unknown sentinel
-1 and fails the operation; a failed seek fails the in-flight operation
(but leaves the cursor at the attempted target rather than setting the
unknown sentinel). -/
theorem cursor_sync (st : SState) (l : Line) (cs : List Char)
    (sok rok : Bool) :
    (st.sfpos = (st.realpos : Int) →
      ∀ bs st2, get_sbuf_line st (some l) sok rok = (some bs, st2) →
        st2.sfpos = (st2.realpos : Int)) ∧
    (∀ wok : Bool, st.seek_write = true ∨ st.sfpos = (st.realpos : Int) →
      ∀ lp st2, put_sbuf_line st cs sok wok = (some lp, st2) →
        st2.sfpos = (st2.realpos : Int)) ∧
    (lineLen cs < LINECHARS → (st.seek_write = true → sok = true) →
      (put_sbuf_line st cs sok false).2.sfpos = -1) := by
  refine ⟨?_, ?_, ?_⟩
  · intro hsp bs st2 h
    simp only [get_sbuf_line] at h
    by_cases hne : st.sfpos ≠ l.adr
    · rw [if_pos hne] at h
      by_cases hso : sok = true ∧ 0 ≤ l.adr
      · rw [if_pos hso] at h
        simp only [get_sbuf_read] at h
        by_cases hrd : rok = true ∧ l.adr.toNat + l.llen ≤ st.contents.length
        · rw [if_pos hrd] at h
          have h2 := congrArg Prod.snd h
          simp only at h2
          subst h2
          simp only []
          push_cast
          rw [Int.toNat_of_nonneg hso.2]
        · rw [if_neg hrd] at h
          simp at h
      · rw [if_neg hso] at h
        simp at h
    · rw [if_neg hne] at h
      simp only [get_sbuf_read] at h
      by_cases hrd : rok = true ∧ st.realpos + l.llen ≤ st.contents.length
      · rw [if_pos hrd] at h
        have h2 := congrArg Prod.snd h
        simp only at h2
        subst h2
        simp only [hsp]
        push_cast
        ring
      · rw [if_neg hrd] at h
        simp at h
  · intro wok hpos lp st2 h
    simp only [put_sbuf_line] at h
    by_cases hb : LINECHARS ≤ lineLen cs
    · rw [if_pos hb] at h
      simp at h
    · rw [if_neg hb] at h
      by_cases hsw : st.seek_write
      · rw [if_pos hsw] at h
        by_cases hso : sok = true
        · rw [hso, if_pos rfl] at h
          simp only [put_sbuf_write] at h
          by_cases hwk : wok = true
          · rw [hwk, if_pos rfl] at h
            have h2 := congrArg Prod.snd h
            simp only at h2
            subst h2
            simp only []
            push_cast
            ring
          · have hwk2 : wok = false := by
              cases hw : wok
              · rfl
              · exact absurd hw hwk
            rw [hwk2] at h
            simp at h
        · have hso2 : sok = false := by
            cases hs : sok
            · rfl
            · exact absurd hs hso
          rw [hso2] at h
          simp at h
      · have hsp : st.sfpos = (st.realpos : Int) := by
          rcases hpos with hcon | hh
          · exact absurd hcon hsw
          · exact hh
        rw [if_neg hsw] at h
        simp only [put_sbuf_write] at h
        by_cases hwk : wok = true
        · rw [hwk, if_pos rfl] at h
          have h2 := congrArg Prod.snd h
          simp only at h2
          subst h2
          simp only [hsp]
          push_cast
          ring
        · have hwk2 : wok = false := by
            cases hw : wok
            · rfl
            · exact absurd hw hwk
          rw [hwk2] at h
          simp at h
  · intro hl hsk
    simp only [put_sbuf_line]
    rw [if_neg (by omega)]
    by_cases hsw : st.seek_write
    · rw [if_pos hsw, if_pos (hsk hsw)]
      simp [put_sbuf_write]
    · rw [if_neg hsw]
      simp [put_sbuf_write]

/-- C5 witness: a failed write from a clean state leaves sfpos = -1. -/
theorem cursor_sync_witness :
    (put_sbuf_line ⟨['a'], 1, true, 1, false, none⟩
        ['b', '\n'] true false).2.sfpos = -1 :=
  (cursor_sync ⟨['a'], 1, true, 1, false, none⟩ ⟨0, 0⟩
    ['b', '\n'] true true).2.2 (by decide) (fun h => Bool.noConfusion h)

/-- C6 counterexample: when fclose fails, close_sbuf returns ERR before
the resets, leaving the cursor (here 7) and the seek_write flag (here
set) unchanged — the claim's "always resets ... in every case" fails. -/
theorem close_fail_no_reset :
    (close_sbuf ⟨[], 0, true, 7, true, none⟩ false).1 = ERR ∧
      (close_sbuf ⟨[], 0, true, 7, true, none⟩ false).2.sfpos = 7 ∧
      (close_sbuf ⟨[], 0, true, 7, true, none⟩ false).2.seek_write
        = true := by
  decide

/-- C6 amended: close_sbuf resets the cursor to 0 and clears the
seek-before-write flag whenever the flush/close step succeeds or no
file is open; when the flush/close step fails it reports
StoreUnavailable (ERR) and leaves the cursor and the flag unchanged. -/
theorem close_resets (st : SState) (ok : Bool) :
    (ok = true ∨ st.sfp_open = false →
      (close_sbuf st ok).2.sfpos = 0 ∧
        (close_sbuf st ok).2.seek_write = false ∧
        (close_sbuf st ok).1 = 0) ∧
    (st.sfp_open = true → ok = false →
      close_sbuf st ok =
        (ERR, { st with errmsg := some EdError.storeUnavailable })) := by
  constructor
  · rintro (hok | hop)
    · subst hok
      unfold close_sbuf
      by_cases ho : st.sfp_open
      · rw [if_pos ho, if_pos rfl]
        exact ⟨rfl, rfl, rfl⟩
      · rw [if_neg ho]
        exact ⟨rfl, rfl, rfl⟩
    · unfold close_sbuf
      rw [if_neg (by simp [hop])]
      exact ⟨rfl, rfl, rfl⟩
  · intro hop hok
    unfold close_sbuf
    rw [if_pos hop, hok, if_neg (by decide)]

/-- C6 witness: a successful close resets cursor and flag. -/
theorem close_resets_witness :
    (close_sbuf ⟨[], 0, true, 7, true, none⟩ true).2.sfpos = 0 ∧
      (close_sbuf ⟨[], 0, true, 7, true, none⟩ true).2.seek_write
          = false ∧
      (close_sbuf ⟨[], 0, true, 7, true, none⟩ true).1 = 0 :=
  (close_resets ⟨[], 0, true, 7, true, none⟩ true).1 (Or.inl rfl)

/-- C7: put_sbuf_line accepts a line of exactly LINECHARS - 1 bytes and
rejects a line of exactly LINECHARS bytes with "line too long"; in the
rejecting case the store (contents, cursor, real position, seek flag)
is untouched — only errmsg is set — since the rejection happens before
any seek or write. -/
theorem boundary (st : SState) (t : List Char) (sok wok : Bool)
    (hnl : '\n' ∉ t) :
    (t.length = LINECHARS →
      put_sbuf_line st (t ++ ['\n']) sok wok =
        (none, { st with errmsg := some EdError.lineTooLong })) ∧
    (t.length = LINECHARS - 1 →
      ∃ lp st2,
        put_sbuf_line st (t ++ ['\n']) true true = (some lp, st2)) := by
  have hll := lineLen_append [] hnl
  constructor
  · intro he
    simp only [put_sbuf_line, hll]
    rw [if_pos (by omega)]
  · intro he
    exact ⟨_, _, put_success_eq st t hnl (by rw [he]; decide)⟩

/-- C7 witness: the boundary at LINECHARS on a fresh store. -/
theorem boundary_witness :
    put_sbuf_line ⟨[], 0, true, 0, false, none⟩
        (List.replicate LINECHARS 'a' ++ ['\n']) true true =
      (none, ⟨[], 0, true, 0, false, some EdError.lineTooLong⟩) ∧
    ∃ lp st2,
      put_sbuf_line ⟨[], 0, true, 0, false, none⟩
          (List.replicate (LINECHARS - 1) 'b' ++ ['\n']) true true =
        (some lp, st2) :=
  ⟨(boundary ⟨[], 0, true, 0, false, none⟩ (List.replicate LINECHARS 'a')
      true true (by
        intro hm
        rw [List.mem_replicate] at hm
        exact absurd hm.2 (by decide))).1 (by simp),
   (boundary ⟨[], 0, true, 0, false, none⟩
      (List.replicate (LINECHARS - 1) 'b') true true (by
        intro hm
        rw [List.mem_replicate] at hm
        exact absurd hm.2 (by decide))).2 (by simp)⟩

/-- C8: on success, put_sbuf_line creates a descriptor whose offset is
the cursor value immediately before the write (after the end-of-file
seek when the seek flag was set) and whose length is the text length in
bytes excluding the newline, and advances the cursor by exactly that
length. -/
theorem append_post (st : SState) (t : List Char) (sok wok : Bool)
    (hnl : '\n' ∉ t) (lp : Line) (st2 : SState)
    (h : put_sbuf_line st (t ++ ['\n']) sok wok = (some lp, st2)) :
    lp.llen = t.length ∧
    lp.adr = (if st.seek_write then (st.contents.length : Int)
              else st.sfpos) ∧
    st2.sfpos = lp.adr + (t.length : Int) := by
  have hll := lineLen_append [] hnl
  simp only [put_sbuf_line, hll] at h
  by_cases hb : LINECHARS ≤ t.length
  · rw [if_pos hb] at h
    simp at h
  · rw [if_neg hb] at h
    by_cases hsw : st.seek_write
    · rw [if_pos hsw] at h
      by_cases hso : sok = true
      · rw [hso, if_pos rfl] at h
        simp only [put_sbuf_write] at h
        by_cases hwk : wok = true
        · rw [hwk, if_pos rfl] at h
          have h1 := congrArg Prod.fst h
          have h2 := congrArg Prod.snd h
          simp only at h1 h2
          have h1b := Option.some.inj h1
          subst h1b
          subst h2
          refine ⟨rfl, ?_, ?_⟩ <;> simp [hsw]
        · have hwk2 : wok = false := by
            cases hw : wok
            · rfl
            · exact absurd hw hwk
          rw [hwk2] at h
          simp at h
      · have hso2 : sok = false := by
          cases hs : sok
          · rfl
          · exact absurd hs hso
        rw [hso2] at h
        simp at h
    · rw [if_neg hsw] at h
      simp only [put_sbuf_write] at h
      by_cases hwk : wok = true
      · rw [hwk, if_pos rfl] at h
        have h1 := congrArg Prod.fst h
        have h2 := congrArg Prod.snd h
        simp only at h1 h2
        have h1b := Option.some.inj h1
        subst h1b
        subst h2
        have hsw2 : st.seek_write = false := by
          cases hs : st.seek_write
          · rfl
          · exact absurd hs hsw
        refine ⟨rfl, ?_, ?_⟩ <;> simp [hsw2]
      · have hwk2 : wok = false := by
          cases hw : wok
          · rfl
          · exact absurd hw hwk
        rw [hwk2] at h
        simp at h

/-- C8 witness: two successive appends of 5-byte lines into a fresh
store yield descriptors at offsets 0 and 5, each of length 5. -/
theorem append_post_witness :
    ((⟨(0 : Int), 5⟩ : Line).llen = ['h', 'e', 'l', 'l', 'o'].length ∧
     (⟨(0 : Int), 5⟩ : Line).adr =
       (if (⟨[], 0, true, 0, false, none⟩ : SState).seek_write
        then (((⟨[], 0, true, 0, false, none⟩ : SState).contents.length
               : Nat) : Int)
        else (⟨[], 0, true, 0, false, none⟩ : SState).sfpos) ∧
     (⟨['h', 'e', 'l', 'l', 'o'], 5, true, 5, false, none⟩
         : SState).sfpos =
       (⟨(0 : Int), 5⟩ : Line).adr +
         ((['h', 'e', 'l', 'l', 'o'].length : Nat) : Int)) ∧
    ((⟨(5 : Int), 5⟩ : Line).llen = ['w', 'o', 'r', 'l', 'd'].length ∧
     (⟨(5 : Int), 5⟩ : Line).adr =
       (if (⟨['h', 'e', 'l', 'l', 'o'], 5, true, 5, false, none⟩
             : SState).seek_write
        then (((⟨['h', 'e', 'l', 'l', 'o'], 5, true, 5, false, none⟩
                : SState).contents.length : Nat) : Int)
        else (⟨['h', 'e', 'l', 'l', 'o'], 5, true, 5, false, none⟩
                : SState).sfpos) ∧
     (⟨['h', 'e', 'l', 'l', 'o', 'w', 'o', 'r', 'l', 'd'], 10, true, 10,
        false, none⟩ : SState).sfpos =
       (⟨(5 : Int), 5⟩ : Line).adr +
         ((['w', 'o', 'r', 'l', 'd'].length : Nat) : Int)) :=
  ⟨append_post ⟨[], 0, true, 0, false, none⟩ ['h', 'e', 'l', 'l', 'o']
      true true (by decide) ⟨(0 : Int), 5⟩
      ⟨['h', 'e', 'l', 'l', 'o'], 5, true, 5, false, none⟩ (by decide),
   append_post ⟨['h', 'e', 'l', 'l', 'o'], 5, true, 5, false, none⟩
      ['w', 'o', 'r', 'l', 'd'] true true (by decide) ⟨(5 : Int), 5⟩
      ⟨['h', 'e', 'l', 'l', 'o', 'w', 'o', 'r', 'l', 'd'], 10, true, 10,
        false, none⟩ (by decide)⟩

/-- C10: calling get_sbuf_line on the sentinel node returns NULL
without reporting an error and without changing any scratch-store
state — in particular it does not set the seek-before-write flag and
does not move the cursor. -/
theorem sentinel_read_noop (st : SState) (sok rok : Bool) :
    get_sbuf_line st none sok rok = (none, st) := rfl

end Ed
